import Mathlib

/-!
Verification of the PEP connection extractor (`connect.py`).

The Python functions are shallowly embedded over `List Char` / `String`:
the regular-expression searches of the source are modelled as explicit
scanning functions with Python `re` semantics (leftmost match, greedy
repetition with backtracking, non-overlapping `findall`, `.` not matching
a newline, `\s` as ASCII whitespace), Python sets as `Finset String`, a
raised `IndexError` as `Option.none`, and the `__main__` driver as a
function returning the list of file-system effects it performs, so that
the ordering of the destructive output-directory reset is observable.
-/

namespace Connect

/-- ASCII whitespace, as matched by the `\s` class in the source patterns
and stripped by `str.strip`. -/
def isPySpace (c : Char) : Bool :=
  c == ' ' || c == '\t' || c == '\n' || c == '\r' || c == '\x0b' || c == '\x0c'

/-- Match the literal pattern `pre` at the head of `s`; on success return
the remaining text. -/
def matchPre (pre s : List Char) : Option (List Char) :=
  if s.take pre.length = pre then some (s.drop pre.length) else none

/-- What the regex `(.*)` captures at a position: every character up to
(excluding) the next newline. -/
def restOfLine (s : List Char) : List Char :=
  s.takeWhile (fun c => c != '\n')

/-- First match of a pattern `pre` `\s+` `(.*)` in the text, as used by
`re.findall(r"Label:\s+(.*)", pep_content)[0]`: scan left to right for a
position where the literal label is followed by at least one whitespace
character; the greedy `\s+` then consumes the whole whitespace run and
`(.*)` captures the rest of that line. -/
def firstFieldWs (pre : List Char) : List Char → Option (List Char)
  | [] => none
  | c :: rest =>
    match matchPre pre (c :: rest) with
    | some (d :: t) =>
      if isPySpace d then some (restOfLine (t.dropWhile isPySpace))
      else firstFieldWs pre rest
    | _ => firstFieldWs pre rest

/-- First match of a pattern `pre` `(.*)` in the text (the label literal
already ends with its single space), as used by
`re.findall(r"Label: (.*)", pep_content)[0]`. -/
def firstFieldSp (pre : List Char) : List Char → Option (List Char)
  | [] => none
  | c :: rest =>
    match matchPre pre (c :: rest) with
    | some t => some (restOfLine t)
    | none => firstFieldSp pre rest

def idLabel : List Char := "PEP:".toList

def titleLabel : List Char := "Title:".toList

def statusLabel : List Char := "Status:".toList

def typeLabel : List Char := "Type:".toList

def topicLabel : List Char := "Topic: ".toList

def authorLabel : List Char := "Author: ".toList

def bdflLabel : List Char := "BDFL-Delegate: ".toList

def pepDelLabel : List Char := "PEP-Delegate: ".toList

/-- Python `str.lower`, character-wise (the source data is ASCII). -/
def pyLower (s : String) : String :=
  String.mk (s.data.map Char.toLower)

/-- Python `str.replace` for a single-character needle and replacement. -/
def pyReplace (s : String) (a b : Char) : String :=
  String.mk (s.data.map (fun c => if c = a then b else c))

/-- Python `str.replace(needle, "")` for a single-character needle. -/
def pyRemove (s : String) (a : Char) : String :=
  String.mk (s.data.filter (fun c => c != a))

/-- Source `slugify`: `string.lower().replace(" ", "-").replace("!", "")`. -/
def slugify (s : String) : String :=
  pyRemove (pyReplace (pyLower s) ' ' '-') '!'

/-- Character-level action of the first two stages of `slugify` (lower-case,
then space to hyphen), used to reason about its composition. -/
def slugChar (c : Char) : Char :=
  if Char.toLower c = ' ' then '-' else Char.toLower c

/-- Attempt to match `[0-9]{3,4}` of exactly length `n` at the head of `t`,
followed by the optional literal suffix character; returns the capture and
the rest of the text after the whole match. -/
def digitsThen (suf : Option Char) (t : List Char) (n : Nat) :
    Option (List Char × List Char) :=
  if (t.take n).length = n && (t.take n).all (fun c => c.isDigit) then
    match suf with
    | none => some (t.take n, t.drop n)
    | some c =>
      if (t.drop n).head? = some c then some (t.take n, t.drop (n + 1))
      else none
  else none

/-- Attempt to match `pre` `([0-9]{3,4})` `suf?` at the head of `s`.
Greedy `{3,4}` with backtracking: four digits are tried first, then three. -/
def matchDigitPat (pre : List Char) (suf : Option Char) (s : List Char) :
    Option (List Char × List Char) :=
  match matchPre pre s with
  | none => none
  | some t =>
    match digitsThen suf t 4 with
    | some res => some res
    | none => digitsThen suf t 3

/-- Fueled scan for `re.findall` with a digit-capture pattern: try to match
at the current position; on success continue after the match
(non-overlapping), otherwise advance one character.  Every successful match
consumes at least three characters, so fuel `s.length + 1` is sufficient. -/
def findallDigitsAux (pre : List Char) (suf : Option Char) :
    Nat → List Char → List (List Char)
  | 0, _ => []
  | fuel + 1, s =>
    match matchDigitPat pre suf s with
    | some (cap, r) => cap :: findallDigitsAux pre suf fuel r
    | none =>
      match s with
      | [] => []
      | _ :: rest => findallDigitsAux pre suf fuel rest

/-- All captures of a digit pattern in the text, in order (`re.findall`). -/
def findallDigits (pre : List Char) (suf : Option Char) (s : List Char) :
    List (List Char) :=
  findallDigitsAux pre suf (s.length + 1) s

/-- Python `str.rjust(4, "0")`. -/
def rjust4 (l : List Char) : List Char :=
  List.replicate (4 - l.length) '0' ++ l

/-- The five mention patterns of `get_mentioned_peps`, each a literal
prefix, a 3-4 digit capture group, and an optional literal suffix (the
closing backtick of the `:pep:` role, written via its code point 96). -/
def mentionPats : List (List Char × Option Char) :=
  [("PEP ".toList, none),
   (":pep:`".toList, some (Char.ofNat 96)),
   ("Replaces: ".toList, none),
   ("Requires: ".toList, none),
   ("Superseded-By: ".toList, none)]

/-- Source `get_mentioned_peps`: union of all zero-padded captures of the
five patterns, with set semantics. -/
def get_mentioned_peps (s : String) : Finset String :=
  (mentionPats.flatMap fun p =>
    (findallDigits p.1 p.2 s.data).map fun cap => String.mk (rjust4 cap)).toFinset

/-- Source `get_identifier`: first capture of `PEP:\s+(.*)` right-justified
to width 4 with `'0'`; `none` models the propagated `IndexError`. -/
def get_identifier (s : String) : Option String :=
  (firstFieldWs idLabel s.data).map fun v => String.mk (rjust4 v)

/-- Source `get_title`: first capture of `Title:\s+(.*)`. -/
def get_title (s : String) : Option String :=
  (firstFieldWs titleLabel s.data).map fun v => String.mk v

/-- Source `get_status`: first capture of `Status:\s+(.*)`, slugified. -/
def get_status (s : String) : Option String :=
  (firstFieldWs statusLabel s.data).map fun v => slugify (String.mk v)

/-- Source `get_type`: first capture of `Type:\s+(.*)`, slugified. -/
def get_type (s : String) : Option String :=
  (firstFieldWs typeLabel s.data).map fun v => slugify (String.mk v)

/-- Python `str.split(", ")`: split on each non-overlapping occurrence of
the two-character separator, scanning left to right. -/
def splitOnCommaSpace : List Char → List (List Char)
  | [] => [[]]
  | ',' :: ' ' :: rest => [] :: splitOnCommaSpace rest
  | c :: rest =>
    match splitOnCommaSpace rest with
    | [] => [[c]]
    | t :: ts => (c :: t) :: ts

/-- Source `get_topics`: captures of `Topic: (.*)` split on `", "` and
slugified; the `IndexError` on an absent field is caught and yields the
empty set. -/
def get_topics (s : String) : Finset String :=
  match firstFieldSp topicLabel s.data with
  | some v => ((splitOnCommaSpace v).map fun t => slugify (String.mk t)).toFinset
  | none => ∅

/-- Python `name.split(" <")[0]`: the prefix before the first occurrence of
the two-character separator, or the whole string when absent. -/
def takeBeforeSpaceLt : List Char → List Char
  | [] => []
  | ' ' :: '<' :: _ => []
  | c :: rest => c :: takeBeforeSpaceLt rest

/-- Python `str.strip()` over ASCII whitespace. -/
def pyStrip (l : List Char) : List Char :=
  ((l.dropWhile isPySpace).reverse.dropWhile isPySpace).reverse

/-- Source post-processing `author.split(" <")[0].strip()`. -/
def stripName (l : List Char) : List Char :=
  pyStrip (takeBeforeSpaceLt l)

/-- Source `get_authors`: capture of `Author: (.*)` split on `", "`, each
entry with the contact suffix removed and stripped; empty set if absent. -/
def get_authors (s : String) : Finset String :=
  match firstFieldSp authorLabel s.data with
  | some v => ((splitOnCommaSpace v).map fun a => String.mk (stripName a)).toFinset
  | none => ∅

/-- Source `get_delegate`: `(bdfl_delegates or pep_delegates)[0]` with the
contact suffix removed and stripped, `None` when neither field matches. -/
def get_delegate (s : String) : Option String :=
  match firstFieldSp bdflLabel s.data with
  | some v => some (String.mk (stripName v))
  | none =>
    match firstFieldSp pepDelLabel s.data with
    | some v => some (String.mk (stripName v))
    | none => none

/-- Source `re.sub(r"^#", "###", line)`: without `re.MULTILINE` the anchor
matches only at position 0, so a line starting with `#` has that single
character replaced by three. -/
def demoteLine : List Char → List Char
  | '#' :: rest => '#' :: '#' :: '#' :: rest
  | l => l

/-- Worker for `str.splitlines`: accumulate the current line (reversed) and
emit it at each line boundary; a trailing terminator produces no extra
empty line.  The common terminators (`\n`, `\r\n`, `\r`) are modelled; the
rare control-character terminators of Python are not. -/
def splitlinesGo : List Char → List Char → List (List Char)
  | [], acc => [acc.reverse]
  | '\n' :: [], acc => [acc.reverse]
  | '\n' :: r :: rs, acc => acc.reverse :: splitlinesGo (r :: rs) []
  | '\r' :: '\n' :: [], acc => [acc.reverse]
  | '\r' :: '\n' :: r :: rs, acc => acc.reverse :: splitlinesGo (r :: rs) []
  | '\r' :: [], acc => [acc.reverse]
  | '\r' :: r :: rs, acc => acc.reverse :: splitlinesGo (r :: rs) []
  | c :: rest, acc => splitlinesGo rest (c :: acc)

/-- Python `str.splitlines` (empty string gives no lines). -/
def splitlines (l : List Char) : List (List Char) :=
  match l with
  | [] => []
  | c :: rest => splitlinesGo (c :: rest) []

/-- The lines written into the Content section of an output document:
`str(info["markdown"]).splitlines()` with each line passed through
`re.sub(r"^#", "###", line)`, in original order. -/
def contentLines (body : String) : List String :=
  (splitlines body.data).map fun l => String.mk (demoteLine l)

/-- Number of leading heading-marker characters of a line. -/
def leadingHashes (l : List Char) : Nat :=
  (l.takeWhile (fun c => c == '#')).length

/-- One in-memory document record of the `connects` mapping. -/
structure Record where
  markdown : String
  mentions : Finset String
  status : String
  topics : Finset String
  title : String
  type : String
  authors : Finset String
  delegate : Option String

/-- Building the record for one document, as in the `__main__` loop:
`get_identifier` is called outside the `try`, conversion failure
(`convert` returning `none`) is caught and replaced by the marker string,
and a failure of any required field extraction propagates (`none`). -/
def buildRecord (convert : String → Option String) (content : String) :
    Option (String × Record) :=
  match get_identifier content with
  | none => none
  | some pid =>
    let md := (convert content).getD "Error converting to markdown."
    match get_status content, get_title content, get_type content with
    | some st, some ti, some ty =>
      some (pid,
        { markdown := md, mentions := get_mentioned_peps content,
          status := st, topics := get_topics content, title := ti,
          type := ty, authors := get_authors content,
          delegate := get_delegate content })
    | _, _, _ => none

/-- File-system effects performed by the driver, in order. -/
inductive Effect where
  | readDoc (content : String)
  | resetOutputDir
  | touchFile (name : String)
  | writeFile (name : String)
deriving DecidableEq

/-- Python dict insert/overwrite keyed by identifier. -/
def dictUpdate (m : List (String × Record)) (k : String) (v : Record) :
    List (String × Record) :=
  if m.any (fun p => p.1 == k) then
    m.map (fun p => if p.1 = k then (k, v) else p)
  else m ++ [(k, v)]

/-- The build phase of `__main__`: read each document (a read effect),
build its record, abort on the first failure.  No output-directory effect
is emitted here: the loop only reads. -/
def buildLoop (convert : String → Option String) :
    List String → List (String × Record) →
    List Effect × Option (List (String × Record))
  | [], m => ([], some m)
  | d :: rest, m =>
    match buildRecord convert d with
    | none => ([Effect.readDoc d], none)
    | some (k, r) =>
      let step := buildLoop convert rest (dictUpdate m k r)
      (Effect.readDoc d :: step.1, step.2)

/-- Effects of `output_markdown`, abstracted per document: the output file
is touched and then written.  The stub-file touches and section contents
are not distinguished here; the rendered Content lines are modelled by
`contentLines`. -/
def renderEffects (m : List (String × Record)) : List Effect :=
  m.flatMap fun p => [Effect.touchFile (p.1 ++ ".md"), Effect.writeFile (p.1 ++ ".md")]

/-- The `__main__` driver: build every record, then
`create_clean_output_dir()` (the destructive reset), then render.  The
boolean reports whether the run completed. -/
def runMain (convert : String → Option String) (docs : List String) :
    List Effect × Bool :=
  match buildLoop convert docs [] with
  | (es, none) => (es, false)
  | (es, some m) => (es ++ Effect.resetOutputDir :: renderEffects m, true)

/-- Whether the `pre` `\s+` `(.*)` pattern matches at the head of `t`. -/
def wsMatchB (pre t : List Char) : Bool :=
  match matchPre pre t with
  | some (d :: _) => isPySpace d
  | _ => false

/-- Whether the `pre` `(.*)` pattern matches at the head of `t`. -/
def spMatchB (pre t : List Char) : Bool :=
  (matchPre pre t).isSome

/-- The labeled field with required whitespace occurs somewhere in `s`. -/
def presentWs (pre s : List Char) : Prop :=
  ∃ i ∈ List.range (s.length + 1), wsMatchB pre (s.drop i) = true

/-- The labeled field with its literal trailing space occurs in `s`. -/
def presentSp (pre s : List Char) : Prop :=
  ∃ i ∈ List.range (s.length + 1), spMatchB pre (s.drop i) = true

instance (pre s : List Char) : Decidable (presentWs pre s) :=
  inferInstanceAs (Decidable (∃ i ∈ List.range (s.length + 1), wsMatchB pre (s.drop i) = true))

instance (pre s : List Char) : Decidable (presentSp pre s) :=
  inferInstanceAs (Decidable (∃ i ∈ List.range (s.length + 1), spMatchB pre (s.drop i) = true))

/-! ## Helper lemmas -/

theorem toLower_idem (c : Char) : c.toLower.toLower = c.toLower := by
  have key : ∀ m : Nat, 65 ≤ m → m ≤ 90 →
      (Char.ofNat (m + 32)).toLower = Char.ofNat (m + 32) := by
    intro m h1 h2
    interval_cases m <;> decide
  by_cases h : c.toNat ≥ 65 ∧ c.toNat ≤ 90
  · have h1 : c.toLower = Char.ofNat (c.toNat + 32) := by
      simp only [Char.toLower, if_pos h]
    rw [h1]
    exact key c.toNat h.1 h.2
  · have h1 : c.toLower = c := by
      simp only [Char.toLower, if_neg h]
    rw [h1, h1]

theorem slugChar_idem (c : Char) : slugChar (slugChar c) = slugChar c := by
  unfold slugChar
  by_cases h : Char.toLower c = ' '
  · rw [if_pos h]
    decide
  · rw [if_neg h, toLower_idem, if_neg h]

theorem slugify_mk (l : List Char) :
    slugify (String.mk l) =
      String.mk ((l.map slugChar).filter (fun c => c != '!')) := by
  unfold slugify pyRemove pyReplace pyLower slugChar
  simp [List.map_map, Function.comp_def]

/-- Claim C7: `slugify` is idempotent. -/
theorem slugify_idempotent (s : String) : slugify (slugify s) = slugify s := by
  obtain ⟨l⟩ := s
  rw [slugify_mk l, slugify_mk]
  congr 1
  have hfix : ((l.map slugChar).filter (fun c => c != '!')).map slugChar =
      (l.map slugChar).filter (fun c => c != '!') := by
    have hall : ∀ x ∈ (l.map slugChar).filter (fun c => c != '!'),
        slugChar x = x := by
      intro x hx
      obtain ⟨c, -, rfl⟩ := List.mem_map.mp (List.mem_of_mem_filter hx)
      exact slugChar_idem c
    calc ((l.map slugChar).filter (fun c => c != '!')).map slugChar
        = ((l.map slugChar).filter (fun c => c != '!')).map id :=
          List.map_congr_left hall
      _ = _ := List.map_id _
  rw [hfix, List.filter_filter]
  simp

theorem matchPre_append (pre t : List Char) : matchPre pre (pre ++ t) = some t := by
  unfold matchPre
  rw [if_pos (List.take_left pre t)]
  rw [List.drop_left]

theorem matchPre_nil_left (s : List Char) : matchPre [] s = some s := by
  simp [matchPre]

theorem matchPre_cons_ne {b c : Char} {bs cs : List Char} (h : c ≠ b) :
    matchPre (b :: bs) (c :: cs) = none := by
  unfold matchPre
  rw [if_neg]
  intro hEq
  rw [List.length_cons, List.take_succ_cons] at hEq
  exact h (List.cons.inj hEq).1

theorem firstFieldWs_at_zero (pre : List Char) {d : Char} (t : List Char)
    (hd : isPySpace d = true) :
    firstFieldWs pre (pre ++ d :: t) =
      some (restOfLine (t.dropWhile isPySpace)) := by
  cases pre with
  | nil =>
    rw [List.nil_append, firstFieldWs, matchPre_nil_left]
    simp [hd]
  | cons p ps =>
    show firstFieldWs (p :: ps) (p :: (ps ++ d :: t)) = _
    have hm : matchPre (p :: ps) (p :: (ps ++ d :: t)) = some (d :: t) :=
      matchPre_append (p :: ps) (d :: t)
    rw [firstFieldWs, hm]
    simp [hd]

theorem firstFieldSp_at_zero {q : Char} (qs t : List Char) :
    firstFieldSp (q :: qs) ((q :: qs) ++ t) = some (restOfLine t) := by
  show firstFieldSp (q :: qs) (q :: (qs ++ t)) = _
  have hm : matchPre (q :: qs) (q :: (qs ++ t)) = some t :=
    matchPre_append (q :: qs) t
  rw [firstFieldSp, hm]

theorem firstFieldSp_skip {b : Char} (bs : List Char) (a v : List Char)
    (h : ∀ c ∈ a, c ≠ b) :
    firstFieldSp (b :: bs) (a ++ v) = firstFieldSp (b :: bs) v := by
  induction a with
  | nil => rw [List.nil_append]
  | cons c a ih =>
    have hc : c ≠ b := h c (by simp)
    show firstFieldSp (b :: bs) (c :: (a ++ v)) = _
    rw [firstFieldSp, matchPre_cons_ne hc]
    exact ih (fun x hx => h x (by simp [hx]))

theorem wsMatchB_nil (pre : List Char) : wsMatchB pre [] = false := by
  cases pre with
  | nil => rfl
  | cons p ps => rfl

theorem forall_drop_cons {P : List Char → Bool} {c : Char} {rest : List Char} :
    (∀ i < rest.length + 1 + 1, P ((c :: rest).drop i) = false) ↔
      (P (c :: rest) = false ∧ ∀ i < rest.length + 1, P (rest.drop i) = false) := by
  constructor
  · intro h
    refine ⟨by simpa using h 0 (by omega), fun i hi => ?_⟩
    simpa using h (i + 1) (by omega)
  · rintro ⟨h0, h⟩ i hi
    cases i with
    | zero => simpa using h0
    | succ j => simpa using h j (by omega)

theorem firstFieldWs_none_iff (pre : List Char) :
    ∀ s : List Char, firstFieldWs pre s = none ↔
      ∀ i < s.length + 1, wsMatchB pre (s.drop i) = false := by
  intro s
  induction s with
  | nil => simp [firstFieldWs, wsMatchB_nil]
  | cons c rest ih =>
    simp only [List.length_cons]
    rw [forall_drop_cons]
    cases hm : matchPre pre (c :: rest) with
    | none =>
      have hw : wsMatchB pre (c :: rest) = false := by
        unfold wsMatchB; rw [hm]
      have hL : firstFieldWs pre (c :: rest) = firstFieldWs pre rest := by
        rw [firstFieldWs, hm]
      rw [hL, hw, ih]
      simp
    | some t =>
      cases t with
      | nil =>
        have hw : wsMatchB pre (c :: rest) = false := by
          unfold wsMatchB; rw [hm]
        have hL : firstFieldWs pre (c :: rest) = firstFieldWs pre rest := by
          rw [firstFieldWs, hm]
        rw [hL, hw, ih]
        simp
      | cons d t2 =>
        by_cases hd : isPySpace d = true
        · have hw : wsMatchB pre (c :: rest) = true := by
            unfold wsMatchB; rw [hm]; exact hd
          have hL : firstFieldWs pre (c :: rest) =
              some (restOfLine (t2.dropWhile isPySpace)) := by
            rw [firstFieldWs, hm]; simp [hd]
          rw [hL, hw]
          simp
        · have hd2 : isPySpace d = false := by simpa using hd
          have hw : wsMatchB pre (c :: rest) = false := by
            unfold wsMatchB; rw [hm]; exact hd2
          have hL : firstFieldWs pre (c :: rest) = firstFieldWs pre rest := by
            rw [firstFieldWs, hm]; simp [hd2]
          rw [hL, hw, ih]
          simp

theorem spMatchB_nil {q : Char} (qs : List Char) :
    spMatchB (q :: qs) [] = false := by
  unfold spMatchB matchPre
  rw [if_neg]
  · rfl
  · simp

theorem firstFieldSp_none_iff {q : Char} (qs : List Char) :
    ∀ s : List Char, firstFieldSp (q :: qs) s = none ↔
      ∀ i < s.length + 1, spMatchB (q :: qs) (s.drop i) = false := by
  intro s
  induction s with
  | nil => simp [firstFieldSp, spMatchB_nil]
  | cons c rest ih =>
    simp only [List.length_cons]
    rw [forall_drop_cons]
    cases hm : matchPre (q :: qs) (c :: rest) with
    | none =>
      have hw : spMatchB (q :: qs) (c :: rest) = false := by
        unfold spMatchB; rw [hm]; rfl
      have hL : firstFieldSp (q :: qs) (c :: rest) = firstFieldSp (q :: qs) rest := by
        rw [firstFieldSp, hm]
      rw [hL, hw, ih]
      simp
    | some t =>
      have hw : spMatchB (q :: qs) (c :: rest) = true := by
        unfold spMatchB; rw [hm]; rfl
      have hL : firstFieldSp (q :: qs) (c :: rest) = some (restOfLine t) := by
        rw [firstFieldSp, hm]
      rw [hL, hw]
      simp

theorem firstFieldWs_none_iff_absent (pre s : List Char) :
    firstFieldWs pre s = none ↔ ¬ presentWs pre s := by
  rw [firstFieldWs_none_iff pre s]
  unfold presentWs
  simp [List.mem_range]

theorem firstFieldSp_none_iff_absent {q : Char} (qs s : List Char) :
    firstFieldSp (q :: qs) s = none ↔ ¬ presentSp (q :: qs) s := by
  rw [firstFieldSp_none_iff qs s]
  unfold presentSp
  simp [List.mem_range]

theorem dropWhile_replicate_space (n : Nat) (v : List Char) :
    (List.replicate n ' ' ++ v).dropWhile isPySpace = v.dropWhile isPySpace := by
  induction n with
  | zero => simp
  | succ k ih =>
    rw [List.replicate_succ, List.cons_append, List.dropWhile_cons]
    simp only [show isPySpace ' ' = true from by decide, if_true]
    exact ih

theorem restOfLine_cons_ne {a : Char} (l : List Char) (h : a ≠ '\n') :
    restOfLine (a :: l) = a :: restOfLine l := by
  unfold restOfLine
  rw [List.takeWhile_cons]
  simp [h]

theorem restOfLine_cons_nl (l : List Char) : restOfLine ('\n' :: l) = [] := by
  unfold restOfLine
  rw [List.takeWhile_cons]
  simp

theorem restOfLine_replicate_space (n : Nat) (v : List Char) :
    restOfLine (List.replicate n ' ' ++ v) = List.replicate n ' ' ++ restOfLine v := by
  induction n with
  | zero => simp
  | succ k ih =>
    rw [List.replicate_succ, List.cons_append, restOfLine_cons_ne _ (by decide), ih]
    simp [List.replicate_succ]

theorem restOfLine_head_ne {v : List Char} {x : Char} (h : v.head? ≠ some x) :
    (restOfLine v).head? ≠ some x := by
  cases v with
  | nil => simp [restOfLine]
  | cons a l =>
    by_cases ha : a = '\n'
    · subst ha
      rw [restOfLine_cons_nl]
      simp
    · rw [restOfLine_cons_ne _ ha]
      simpa using h

theorem restOfLine_eq_self {v : List Char} (h : '\n' ∉ v) : restOfLine v = v := by
  induction v with
  | nil => rfl
  | cons a l ih =>
    have ha : a ≠ '\n' := fun e => h (by simp [e])
    rw [restOfLine_cons_ne _ ha, ih (fun e => h (by simp [e]))]

theorem restOfLine_append_nl {v : List Char} (h : '\n' ∉ v) (rest : List Char) :
    restOfLine (v ++ '\n' :: rest) = v := by
  induction v with
  | nil => simp [restOfLine_cons_nl]
  | cons a l ih =>
    have ha : a ≠ '\n' := fun e => h (by simp [e])
    rw [List.cons_append, restOfLine_cons_ne _ ha, ih (fun e => h (by simp [e]))]

theorem splitOnCommaSpace_ne_nil (w : List Char) : splitOnCommaSpace w ≠ [] := by
  rw [splitOnCommaSpace.eq_def]
  split
  · simp
  · simp
  · split <;> simp

theorem splitOnCommaSpace_cons_ne_comma {c : Char} (hc : c ≠ ',') (w : List Char) :
    splitOnCommaSpace (c :: w) =
      match splitOnCommaSpace w with
      | [] => [[c]]
      | t :: ts => (c :: t) :: ts := by
  rw [splitOnCommaSpace.eq_def]
  split
  · simp_all
  · simp_all
  · simp_all

theorem splitOnCommaSpace_replicate_space (n : Nat) {w t : List Char}
    {ts : List (List Char)} (h : splitOnCommaSpace w = t :: ts) :
    splitOnCommaSpace (List.replicate n ' ' ++ w) =
      (List.replicate n ' ' ++ t) :: ts := by
  induction n with
  | zero => simpa using h
  | succ k ih =>
    rw [List.replicate_succ, List.cons_append,
      splitOnCommaSpace_cons_ne_comma (by decide), ih]
    simp [List.replicate_succ]

theorem splitOnCommaSpace_head {w t : List Char} {ts : List (List Char)}
    (h : splitOnCommaSpace w = t :: ts) : t = [] ∨ t.head? = w.head? := by
  rw [splitOnCommaSpace.eq_def] at h
  split at h
  · simp_all
  · left
    exact (List.cons.inj h.symm).1
  · split at h
    · right
      simp only [List.cons.injEq] at h
      rw [← h.1]
      simp
    · right
      simp only [List.cons.injEq] at h
      rw [← h.1]
      simp

theorem takeBeforeSpaceLt_cons_space {w : List Char} (h : w.head? ≠ some '<') :
    takeBeforeSpaceLt (' ' :: w) = ' ' :: takeBeforeSpaceLt w := by
  rw [takeBeforeSpaceLt.eq_def]
  split
  · simp_all
  · simp_all
  · rename_i hno heq
    obtain ⟨h1, h2⟩ := List.cons.inj heq
    subst h2
    rw [← h1]

theorem takeBeforeSpaceLt_replicate_space (n : Nat) {w : List Char}
    (h : w.head? ≠ some '<') :
    takeBeforeSpaceLt (List.replicate n ' ' ++ w) =
      List.replicate n ' ' ++ takeBeforeSpaceLt w := by
  induction n with
  | zero => simp
  | succ k ih =>
    have hh : (List.replicate k ' ' ++ w).head? ≠ some '<' := by
      cases k with
      | zero => simpa using h
      | succ m => simp [List.replicate_succ]
    rw [List.replicate_succ, List.cons_append, takeBeforeSpaceLt_cons_space hh, ih]
    simp [List.replicate_succ]

theorem pyStrip_replicate_space (n : Nat) (w : List Char) :
    pyStrip (List.replicate n ' ' ++ w) = pyStrip w := by
  unfold pyStrip
  rw [dropWhile_replicate_space]

theorem stripName_replicate_space (n : Nat) {w : List Char}
    (h : w.head? ≠ some '<') :
    stripName (List.replicate n ' ' ++ w) = stripName w := by
  unfold stripName
  rw [takeBeforeSpaceLt_replicate_space n h, pyStrip_replicate_space]

theorem isDigit_not_space {c : Char} (h : c.isDigit = true) :
    isPySpace c = false := by
  by_contra hc
  have hc2 : isPySpace c = true := by simpa using hc
  simp [isPySpace] at hc2
  rcases hc2 with ((((rfl | rfl) | rfl) | rfl) | rfl) | rfl <;>
    exact absurd h (by decide)

theorem isDigit_ne_newline {c : Char} (h : c.isDigit = true) : c ≠ '\n' := by
  intro e
  subst e
  exact absurd h (by decide)

theorem dropWhile_eq_self_of_head {v : List Char}
    (h : ∀ c, v.head? = some c → isPySpace c = false) :
    v.dropWhile isPySpace = v := by
  cases v with
  | nil => rfl
  | cons a l =>
    rw [List.dropWhile_cons]
    simp [h a rfl]

theorem rjust4_length (v : List Char) : (rjust4 v).length = max 4 v.length := by
  unfold rjust4
  simp only [List.length_append, List.length_replicate]
  omega

theorem rjust4_eq_self {v : List Char} (h : 4 ≤ v.length) : rjust4 v = v := by
  unfold rjust4
  rw [show 4 - v.length = 0 from by omega]
  simp

theorem rjust4_all_digits {v : List Char} (h : ∀ c ∈ v, c.isDigit = true) :
    ∀ c ∈ rjust4 v, c.isDigit = true := by
  intro c hc
  unfold rjust4 at hc
  rcases List.mem_append.mp hc with hrep | hv
  · rw [List.eq_of_mem_replicate hrep]
    decide
  · exact h c hv

theorem demoteLine_hash (r : List Char) :
    demoteLine ('#' :: r) = '#' :: '#' :: '#' :: r := rfl

theorem demoteLine_not_hash {l : List Char} (h : l.head? ≠ some '#') :
    demoteLine l = l := by
  cases l with
  | nil => rfl
  | cons a r =>
    have ha : a ≠ '#' := by simpa using h
    rw [demoteLine.eq_def]
    split
    · simp_all
    · rfl

theorem leadingHashes_cons_hash (l : List Char) :
    leadingHashes ('#' :: l) = leadingHashes l + 1 := by
  unfold leadingHashes
  rw [List.takeWhile_cons]
  simp

theorem buildLoop_reads (convert : String → Option String) :
    ∀ (docs : List String) (m0 : List (String × Record)),
      ∀ e ∈ (buildLoop convert docs m0).1, ∃ d ∈ docs, e = Effect.readDoc d := by
  intro docs
  induction docs with
  | nil =>
    intro m0 e he
    simp [buildLoop] at he
  | cons d rest ih =>
    intro m0 e he
    cases hb : buildRecord convert d with
    | none =>
      rw [buildLoop, hb] at he
      simp at he
      exact ⟨d, by simp, he⟩
    | some kr =>
      rw [buildLoop, hb] at he
      simp at he
      rcases he with rfl | he
      · exact ⟨d, by simp, rfl⟩
      · obtain ⟨d2, hd2, rfl⟩ := ih _ e he
        exact ⟨d2, by simp [hd2], rfl⟩

theorem buildLoop_none_iff (convert : String → Option String) :
    ∀ (docs : List String) (m0 : List (String × Record)),
      (buildLoop convert docs m0).2 = none ↔
        ∃ d ∈ docs, buildRecord convert d = none := by
  intro docs
  induction docs with
  | nil =>
    intro m0
    simp [buildLoop]
  | cons d rest ih =>
    intro m0
    cases hb : buildRecord convert d with
    | none =>
      rw [buildLoop, hb]
      simp
      exact Or.inl hb
    | some kr =>
      rw [buildLoop, hb]
      simp only []
      rw [ih]
      constructor
      · rintro ⟨d2, hd2, h2⟩
        exact ⟨d2, by simp [hd2], h2⟩
      · rintro ⟨d2, hd2, h2⟩
        rcases List.mem_cons.mp hd2 with rfl | hd2
        · rw [hb] at h2
          cases h2
        · exact ⟨d2, hd2, h2⟩

theorem data_mk (l : List Char) : (String.mk l).data = l := rfl

theorem firstFieldSp_none_iff_absent2 (pre s : List Char) (hp : pre ≠ []) :
    firstFieldSp pre s = none ↔ ¬ presentSp pre s := by
  cases pre with
  | nil => exact absurd rfl hp
  | cons q qs => exact firstFieldSp_none_iff_absent qs s

theorem firstFieldWs_pad (pre v : List Char) (n : Nat) :
    firstFieldWs pre (pre ++ ' ' :: (List.replicate n ' ' ++ v)) =
      firstFieldWs pre (pre ++ ' ' :: v) := by
  rw [firstFieldWs_at_zero pre _ (by decide), firstFieldWs_at_zero pre _ (by decide)]
  rw [dropWhile_replicate_space]

theorem firstFieldSp_pad (pre v : List Char) (n : Nat) (hp : pre ≠ []) :
    firstFieldSp pre (pre ++ (List.replicate n ' ' ++ v)) =
      some (List.replicate n ' ' ++ restOfLine v) := by
  cases pre with
  | nil => exact absurd rfl hp
  | cons q qs => rw [firstFieldSp_at_zero qs _, restOfLine_replicate_space]

theorem get_delegate_eq (s : String) :
    get_delegate s =
      match firstFieldSp bdflLabel s.data with
      | some v => some (String.mk (stripName v))
      | none =>
        match firstFieldSp pepDelLabel s.data with
        | some v => some (String.mk (stripName v))
        | none => none := rfl

/-! ## Claim theorems -/

set_option maxRecDepth 4000

/-- Claim C2: `get_mentioned_peps` returns exactly the union, over the five
mention patterns, of every captured 3-4 digit number, each zero-padded to 4
digits, with duplicates collapsed by set semantics; a text containing both
a casual and a role mention yields both identifiers, and a repeated mention
collapses to one entry. -/
theorem mentioned_peps_spec :
    (∀ s m : String, m ∈ get_mentioned_peps s ↔
      ∃ p ∈ mentionPats, ∃ cap ∈ findallDigits p.1 p.2 s.data,
        m = String.mk (rjust4 cap)) ∧
    get_mentioned_peps "PEP 440 and :pep:`457` are great" = {"0440", "0457"} ∧
    get_mentioned_peps "PEP 440 is PEP 440 is PEP 440" = {"0440"} := by
  refine ⟨?_, by decide, by decide⟩
  intro s m
  unfold get_mentioned_peps
  rw [List.mem_toFinset]
  constructor
  · intro hm
    obtain ⟨p, hp, hcap⟩ := List.mem_flatMap.mp hm
    obtain ⟨cap, hcap2, rfl⟩ := List.mem_map.mp hcap
    exact ⟨p, hp, cap, hcap2, rfl⟩
  · rintro ⟨p, hp, cap, hcap, rfl⟩
    exact List.mem_flatMap.mpr ⟨p, hp, List.mem_map.mpr ⟨cap, hcap, rfl⟩⟩

/-- Claim C10: a Requires/Replaces/Superseded-By field with several
comma-separated identifiers contributes only the first number per field
occurrence; later numbers appear only via another pattern occurrence. -/
theorem requires_first_number_only :
    get_mentioned_peps "Requires: 100, 101" = {"0100"} ∧
    get_mentioned_peps "Requires: 100, 101 but PEP 101 elsewhere" =
      {"0100", "0101"} ∧
    get_mentioned_peps "Requires: 100, 101\nRequires: 200, 300" =
      {"0100", "0200"} := by
  refine ⟨by decide, by decide, by decide⟩

/-- Claim C4: each required-field extraction (identifier, title, status,
type) fails exactly when its labeled field is absent from the text, the
failure propagates out of the document builder, and topic extraction on an
absent field returns the empty set instead of failing. -/
theorem required_field_error_iff (s : String) :
    ((get_identifier s = none) ↔ ¬ presentWs idLabel s.data) ∧
    ((get_title s = none) ↔ ¬ presentWs titleLabel s.data) ∧
    ((get_status s = none) ↔ ¬ presentWs statusLabel s.data) ∧
    ((get_type s = none) ↔ ¬ presentWs typeLabel s.data) ∧
    (∀ convert : String → Option String,
      get_identifier s = none ∨ get_title s = none ∨
        get_status s = none ∨ get_type s = none →
      buildRecord convert s = none) ∧
    (¬ presentSp topicLabel s.data → get_topics s = ∅) := by
  refine ⟨?_, ?_, ?_, ?_, ?_, ?_⟩
  · unfold get_identifier
    rw [Option.map_eq_none', firstFieldWs_none_iff_absent]
  · unfold get_title
    rw [Option.map_eq_none', firstFieldWs_none_iff_absent]
  · unfold get_status
    rw [Option.map_eq_none', firstFieldWs_none_iff_absent]
  · unfold get_type
    rw [Option.map_eq_none', firstFieldWs_none_iff_absent]
  · intro convert h
    rcases h with h | h | h | h <;>
      cases hid : get_identifier s <;>
      cases hst : get_status s <;>
      cases hti : get_title s <;>
      cases hty : get_type s <;>
      simp_all [buildRecord]
  · intro h
    unfold get_topics
    rw [(firstFieldSp_none_iff_absent2 topicLabel s.data (by decide)).mpr h]

/-- Witness for claim C4 at a concrete topic-free text and a concrete
document missing its identifier field. -/
theorem required_field_error_iff_witness :
    get_topics "hello" = ∅ ∧
    buildRecord (fun _ => (none : Option String)) "Title: T\nStatus: S" = none :=
  ⟨(required_field_error_iff "hello").2.2.2.2.2 (by decide),
   (required_field_error_iff "Title: T\nStatus: S").2.2.2.2.1
     (fun _ => (none : Option String)) (Or.inl (by decide))⟩

/-- Claim C5: in the rendered Content section, every body line beginning
with the heading marker has that marker demoted by exactly two levels,
every line not beginning with it is written unchanged, and the original
line order of the body is preserved (position `i` of the output lines is
position `i` of the body lines). -/
theorem heading_demotion_spec (body : String) :
    (contentLines body).length = (splitlines body.data).length ∧
    ∀ (i : Nat) (orig : List Char), (splitlines body.data)[i]? = some orig →
      ((orig.head? = some '#' →
          (contentLines body)[i]? = some (String.mk ('#' :: '#' :: orig)) ∧
          leadingHashes ('#' :: '#' :: orig) = leadingHashes orig + 2) ∧
       (orig.head? ≠ some '#' →
          (contentLines body)[i]? = some (String.mk orig))) := by
  constructor
  · simp [contentLines]
  · intro i orig h
    have hmap : (contentLines body)[i]? = some (String.mk (demoteLine orig)) := by
      unfold contentLines
      rw [List.getElem?_map, h]
      rfl
    cases orig with
    | nil =>
      constructor
      · intro hh
        simp at hh
      · intro _
        exact hmap
    | cons a r =>
      by_cases ha : a = '#'
      · subst ha
        constructor
        · intro _
          refine ⟨?_, ?_⟩
          · rw [hmap, demoteLine_hash]
          · rw [leadingHashes_cons_hash, leadingHashes_cons_hash,
              leadingHashes_cons_hash]
        · intro hh
          simp at hh
      · constructor
        · intro hh
          simp at hh
          exact absurd hh ha
        · intro _
          rw [hmap, demoteLine_not_hash (by simpa using ha)]

/-- Witness for claim C5 at a concrete two-line body: the heading line is
demoted and the plain line is unchanged. -/
theorem heading_demotion_spec_witness :
    (contentLines "# T\nplain")[0]? =
      some (String.mk ('#' :: '#' :: "# T".toList)) ∧
    (contentLines "# T\nplain")[1]? = some (String.mk ("plain".toList)) :=
  ⟨(((heading_demotion_spec "# T\nplain").2 0 "# T".toList (by decide)).1
      (by decide)).1,
   ((heading_demotion_spec "# T\nplain").2 1 "plain".toList (by decide)).2
     (by decide)⟩

/-- Claim C6: when the BDFL-Delegate field matches, `get_delegate` returns
the display name from its first occurrence (any PEP-Delegate value is
ignored); when neither delegate field is present it returns `none`; the
returned name is the capture with the contact suffix removed and
whitespace stripped, e.g. the name before an email address. -/
theorem delegate_priority_spec (s : String) :
    (∀ v, firstFieldSp bdflLabel s.data = some v →
      get_delegate s = some (String.mk (stripName v))) ∧
    (¬ presentSp bdflLabel s.data → ¬ presentSp pepDelLabel s.data →
      get_delegate s = none) ∧
    get_delegate
        "BDFL-Delegate: Alice Smith <as@example.org>\nPEP-Delegate: Bob Jones" =
      some "Alice Smith" := by
  refine ⟨?_, ?_, by decide⟩
  · intro v hv
    rw [get_delegate_eq, hv]
  · intro h1 h2
    rw [get_delegate_eq,
      (firstFieldSp_none_iff_absent2 bdflLabel s.data (by decide)).mpr h1,
      (firstFieldSp_none_iff_absent2 pepDelLabel s.data (by decide)).mpr h2]

/-- Witness for claim C6 at a concrete two-delegate text and a concrete
text with no delegate field. -/
theorem delegate_priority_spec_witness :
    get_delegate "BDFL-Delegate: Alice <a@x.org>\nPEP-Delegate: Bob" =
      some (String.mk (stripName ("Alice <a@x.org>".toList))) ∧
    get_delegate "nobody here" = none :=
  ⟨(delegate_priority_spec "BDFL-Delegate: Alice <a@x.org>\nPEP-Delegate: Bob").1
    "Alice <a@x.org>".toList (by decide),
   (delegate_priority_spec "nobody here").2.1 (by decide) (by decide)⟩

/-- Claim C9: `get_identifier` performs no validation or truncation: it
returns the entire remainder of the line after the label, left-padded with
zeros only up to a minimum length of 4, so some values are longer than 4
characters or contain non-digit characters. -/
theorem identifier_no_validation_spec :
    (∀ v : List Char, (∀ c, v.head? = some c → isPySpace c = false) →
        '\n' ∉ v →
        get_identifier (String.mk (idLabel ++ ' ' :: v)) =
          some (String.mk (rjust4 v))) ∧
    (∀ v : List Char, 4 ≤ v.length → rjust4 v = v) ∧
    (∀ v : List Char, (rjust4 v).length = max 4 v.length) ∧
    get_identifier "PEP: 440 draft" = some "440 draft" ∧
    4 < ("440 draft" : String).data.length ∧
    ∃ c ∈ ("440 draft" : String).data, c.isDigit = false := by
  refine ⟨?_, fun v h => rjust4_eq_self h, fun v => rjust4_length v,
    by decide, by decide, by decide⟩
  intro v hhead hnl
  unfold get_identifier
  rw [data_mk, firstFieldWs_at_zero idLabel v (by decide)]
  rw [dropWhile_eq_self_of_head hhead, restOfLine_eq_self hnl]
  rfl

/-- Witness for claim C9 at a concrete unvalidated field value. -/
theorem identifier_no_validation_spec_witness :
    get_identifier (String.mk (idLabel ++ ' ' :: "9999 five".toList)) =
      some (String.mk (rjust4 ("9999 five".toList))) :=
  identifier_no_validation_spec.1 "9999 five".toList (by decide) (by decide)

/-- Claim C1 counterexample: a document accepted by the builder whose
extracted identifier is nine characters long and contains non-digit
characters, refuting that every accepted document yields a 4-digit
identifier. -/
theorem identifier_four_digit_cex :
    (buildRecord (fun _ => (none : Option String))
        "PEP: 440 draft\nTitle: T\nStatus: Cool\nType: Process\n").isSome = true ∧
    get_identifier "PEP: 440 draft\nTitle: T\nStatus: Cool\nType: Process\n" =
      some "440 draft" ∧
    ¬ (("440 draft" : String).data.length = 4 ∧
        ∀ c ∈ ("440 draft" : String).data, c.isDigit = true) := by
  refine ⟨by decide, by decide, by decide⟩

/-- Claim C1 (amended): whenever the PEP: field value is a nonempty string
of at most four digits ending its line, `get_identifier` returns exactly
four characters, all digits, zero-padded on the left (the builder accepts
other values too, and then the identifier is returned unvalidated). -/
theorem identifier_four_digit_amended (v rest : List Char) (hne : v ≠ [])
    (hdig : ∀ c ∈ v, c.isDigit = true) (hlen : v.length ≤ 4) :
    get_identifier (String.mk (idLabel ++ ' ' :: (v ++ '\n' :: rest))) =
      some (String.mk (rjust4 v)) ∧
    (rjust4 v).length = 4 ∧
    (∀ c ∈ rjust4 v, c.isDigit = true) := by
  refine ⟨?_, by rw [rjust4_length]; omega, rjust4_all_digits hdig⟩
  unfold get_identifier
  rw [data_mk, firstFieldWs_at_zero idLabel _ (by decide)]
  have h2 : (v ++ '\n' :: rest).dropWhile isPySpace = v ++ '\n' :: rest := by
    apply dropWhile_eq_self_of_head
    intro c hc
    cases v with
    | nil => exact absurd rfl hne
    | cons a l =>
      have hac : a = c := by simpa using hc
      subst hac
      exact isDigit_not_space (hdig a (by simp))
  rw [h2, restOfLine_append_nl (fun hm => absurd (hdig '\n' hm) (by decide)) rest]
  rfl

/-- Witness for the amended claim C1 at a concrete 3-digit value. -/
theorem identifier_four_digit_amended_witness :
    get_identifier
        (String.mk (idLabel ++ ' ' :: ("440".toList ++ '\n' :: "Title: X".toList))) =
      some (String.mk (rjust4 ("440".toList))) :=
  (identifier_four_digit_amended "440".toList "Title: X".toList (by decide)
    (by decide) (by decide)).1

/-- Claim C3 counterexample: for the topics field, extra whitespace after
the colon changes the extracted value, refuting whitespace-tolerance for
every labeled field. -/
theorem field_whitespace_cex :
    get_topics "Topic:   Cool" ≠ get_topics "Topic: Cool" ∧
    get_topics "Topic:   Cool" = {"--cool"} ∧
    get_topics "Topic: Cool" = {"cool"} := by
  refine ⟨by decide, by decide, by decide⟩

/-- Claim C3 (amended): extra whitespace after the colon does not change
the extracted value for the identifier, title, status and type fields
(their patterns use `\s+`), nor for the authors and delegate fields
provided the field value does not begin with `<` (their captured leading
whitespace is stripped); for the topics field the extra whitespace is
captured into the value (see the counterexample). -/
theorem field_whitespace_amended (v : List Char) (n : Nat) :
    (get_identifier (String.mk (idLabel ++ ' ' :: (List.replicate n ' ' ++ v))) =
      get_identifier (String.mk (idLabel ++ ' ' :: v))) ∧
    (get_title (String.mk (titleLabel ++ ' ' :: (List.replicate n ' ' ++ v))) =
      get_title (String.mk (titleLabel ++ ' ' :: v))) ∧
    (get_status (String.mk (statusLabel ++ ' ' :: (List.replicate n ' ' ++ v))) =
      get_status (String.mk (statusLabel ++ ' ' :: v))) ∧
    (get_type (String.mk (typeLabel ++ ' ' :: (List.replicate n ' ' ++ v))) =
      get_type (String.mk (typeLabel ++ ' ' :: v))) ∧
    (v.head? ≠ some '<' →
      get_authors (String.mk (authorLabel ++ (List.replicate n ' ' ++ v))) =
        get_authors (String.mk (authorLabel ++ v))) ∧
    (v.head? ≠ some '<' →
      get_delegate (String.mk (bdflLabel ++ (List.replicate n ' ' ++ v))) =
        get_delegate (String.mk (bdflLabel ++ v))) ∧
    (v.head? ≠ some '<' →
      get_delegate (String.mk (pepDelLabel ++ (List.replicate n ' ' ++ v))) =
        get_delegate (String.mk (pepDelLabel ++ v))) := by
  have hsp0 : ∀ (pre : List Char), pre ≠ [] → ∀ w : List Char,
      firstFieldSp pre (pre ++ w) = some (restOfLine w) := by
    intro pre hp w
    simpa using firstFieldSp_pad pre w 0 hp
  refine ⟨?_, ?_, ?_, ?_, ?_, ?_, ?_⟩
  · unfold get_identifier
    rw [data_mk, data_mk, firstFieldWs_pad]
  · unfold get_title
    rw [data_mk, data_mk, firstFieldWs_pad]
  · unfold get_status
    rw [data_mk, data_mk, firstFieldWs_pad]
  · unfold get_type
    rw [data_mk, data_mk, firstFieldWs_pad]
  · intro hv
    unfold get_authors
    rw [data_mk, data_mk, firstFieldSp_pad authorLabel v n (by decide),
      hsp0 authorLabel (by decide) v]
    obtain ⟨t, ts, hsplit⟩ : ∃ t ts,
        splitOnCommaSpace (restOfLine v) = t :: ts := by
      cases hs : splitOnCommaSpace (restOfLine v) with
      | nil => exact absurd hs (splitOnCommaSpace_ne_nil _)
      | cons t ts => exact ⟨t, ts, rfl⟩
    have hth : t.head? ≠ some '<' := by
      rcases splitOnCommaSpace_head hsplit with rfl | hh
      · simp
      · rw [hh]
        exact restOfLine_head_ne hv
    have goal_eq :
        ((splitOnCommaSpace (List.replicate n ' ' ++ restOfLine v)).map
            (fun a => String.mk (stripName a))).toFinset =
          ((splitOnCommaSpace (restOfLine v)).map
            (fun a => String.mk (stripName a))).toFinset := by
      rw [splitOnCommaSpace_replicate_space n hsplit, hsplit]
      simp only [List.map_cons]
      rw [stripName_replicate_space n hth]
    exact goal_eq
  · intro hv
    rw [get_delegate_eq, get_delegate_eq, data_mk, data_mk,
      firstFieldSp_pad bdflLabel v n (by decide),
      hsp0 bdflLabel (by decide) v]
    have goal_eq :
        some (String.mk (stripName (List.replicate n ' ' ++ restOfLine v))) =
          some (String.mk (stripName (restOfLine v))) := by
      rw [stripName_replicate_space n (restOfLine_head_ne hv)]
    exact goal_eq
  · intro hv
    have hBcons : bdflLabel = 'B' :: "DFL-Delegate: ".toList := by decide
    have hnoB : ∀ a : List Char, (∀ c ∈ a, c ≠ 'B') → ∀ w : List Char,
        firstFieldSp bdflLabel (a ++ w) = firstFieldSp bdflLabel w := by
      intro a ha w
      rw [hBcons]
      exact firstFieldSp_skip _ a w ha
    have hchars : ∀ c ∈ pepDelLabel, c ≠ 'B' := by decide
    have hskipL : firstFieldSp bdflLabel
        (pepDelLabel ++ (List.replicate n ' ' ++ v)) =
        firstFieldSp bdflLabel v := by
      rw [← List.append_assoc]
      apply hnoB
      intro c hc
      rcases List.mem_append.mp hc with h1 | h2
      · exact hchars c h1
      · rw [List.eq_of_mem_replicate h2]
        decide
    have hskipR : firstFieldSp bdflLabel (pepDelLabel ++ v) =
        firstFieldSp bdflLabel v := hnoB pepDelLabel hchars v
    rw [get_delegate_eq, get_delegate_eq, data_mk, data_mk, hskipL, hskipR]
    cases hB : firstFieldSp bdflLabel v with
    | some w => rfl
    | none =>
      rw [firstFieldSp_pad pepDelLabel v n (by decide),
        hsp0 pepDelLabel (by decide) v]
      have goal_eq :
          some (String.mk (stripName (List.replicate n ' ' ++ restOfLine v))) =
            some (String.mk (stripName (restOfLine v))) := by
        rw [stripName_replicate_space n (restOfLine_head_ne hv)]
      exact goal_eq

/-- Witness for the amended claim C3 at concrete values with two extra
spaces after the colon. -/
theorem field_whitespace_amended_witness :
    (get_status (String.mk (statusLabel ++ ' ' :: (List.replicate 2 ' ' ++ "Cool".toList))) =
      get_status (String.mk (statusLabel ++ ' ' :: "Cool".toList))) ∧
    (get_authors (String.mk (authorLabel ++ (List.replicate 2 ' ' ++ "Jane Q <j@x>, Bo".toList))) =
      get_authors (String.mk (authorLabel ++ "Jane Q <j@x>, Bo".toList))) ∧
    (get_delegate (String.mk (bdflLabel ++ (List.replicate 2 ' ' ++ "Jane Q <j@x>".toList))) =
      get_delegate (String.mk (bdflLabel ++ "Jane Q <j@x>".toList))) ∧
    (get_delegate (String.mk (pepDelLabel ++ (List.replicate 2 ' ' ++ "Jane Q <j@x>".toList))) =
      get_delegate (String.mk (pepDelLabel ++ "Jane Q <j@x>".toList))) :=
  ⟨(field_whitespace_amended "Cool".toList 2).2.2.1,
   (field_whitespace_amended "Jane Q <j@x>, Bo".toList 2).2.2.2.2.1 (by decide),
   (field_whitespace_amended "Jane Q <j@x>".toList 2).2.2.2.2.2.1 (by decide),
   (field_whitespace_amended "Jane Q <j@x>".toList 2).2.2.2.2.2.2 (by decide)⟩

/-- Claim C8: the run fails exactly when some document is missing a
required field, and a failing run performs no output-directory mutation:
its effect trace consists only of document reads, with the destructive
reset emitted only after every document has been built. -/
theorem reset_after_build_spec (convert : String → Option String)
    (docs : List String) :
    ((runMain convert docs).2 = false ↔
      ∃ d ∈ docs, buildRecord convert d = none) ∧
    ((runMain convert docs).2 = false →
      Effect.resetOutputDir ∉ (runMain convert docs).1 ∧
      ∀ e ∈ (runMain convert docs).1, ∃ d ∈ docs, e = Effect.readDoc d) ∧
    ((runMain convert docs).2 = true →
      ∃ reads m, (runMain convert docs).1 =
          reads ++ Effect.resetOutputDir :: renderEffects m ∧
        ∀ e ∈ reads, ∃ d ∈ docs, e = Effect.readDoc d) := by
  unfold runMain
  cases hb : buildLoop convert docs [] with
  | mk es res =>
    cases res with
    | none =>
      refine ⟨?_, ?_, ?_⟩
      · constructor
        · intro _
          rw [← buildLoop_none_iff convert docs [], hb]
        · intro _
          rfl
      · intro _
        have hreads : ∀ e ∈ es, ∃ d ∈ docs, e = Effect.readDoc d := by
          intro e he
          exact buildLoop_reads convert docs [] e (by rw [hb]; exact he)
        refine ⟨?_, hreads⟩
        intro hmem
        obtain ⟨d, -, hd⟩ := hreads _ hmem
        cases hd
      · intro h
        exact absurd h (by simp)
    | some m =>
      refine ⟨?_, ?_, ?_⟩
      · constructor
        · intro h
          exact absurd h (by simp)
        · intro hex
          exfalso
          have hn := (buildLoop_none_iff convert docs []).mpr hex
          rw [hb] at hn
          exact Option.noConfusion hn
      · intro h
        exact absurd h (by simp)
      · intro _
        refine ⟨es, m, rfl, ?_⟩
        intro e he
        exact buildLoop_reads convert docs [] e (by rw [hb]; exact he)

/-- Witness for claim C8 at a concrete corpus whose single document lacks
the identifier field, and at a concrete complete document. -/
theorem reset_after_build_spec_witness :
    (Effect.resetOutputDir ∉
      (runMain (fun _ => (none : Option String)) ["Title: no identifier"]).1) ∧
    (∃ reads m,
      (runMain (fun _ => (none : Option String))
          ["PEP: 1\nTitle: T\nStatus: S\nType: P"]).1 =
        reads ++ Effect.resetOutputDir :: renderEffects m ∧
      ∀ e ∈ reads, ∃ d ∈ ["PEP: 1\nTitle: T\nStatus: S\nType: P"],
        e = Effect.readDoc d) :=
  ⟨((reset_after_build_spec (fun _ => (none : Option String))
      ["Title: no identifier"]).2.1 (by decide)).1,
   (reset_after_build_spec (fun _ => (none : Option String))
      ["PEP: 1\nTitle: T\nStatus: S\nType: P"]).2.2 (by decide)⟩

end Connect
